import Mathlib

/-!
Verification development for the Yahoozy dice game (src/yahoozy.py).

The file shallowly embeds the game's core logic:
* `Category` / `Category.compute` — the 15 scoring categories and their
  per-roll point computation (yahoozy.py lines 29–101);
* `ScoreSheet` — the per-player category → points dictionary with its
  `total` computation (lines 104–113) and plain-assignment update;
* `DiceState` — the dice / reroll-mask / rolls-remaining record and its
  `reroll_dice` loop (lines 282–300);
* the game-loop state machine commands (lines 486–727);
* the leaderboard merge of `game_end` (lines 735–745) and the history
  persistence `savehist` / `loadhist` (lines 813–829).

Randomness (`random.randint(1, 6)`) is modelled by an explicit oracle
`rand : Nat → Nat`, the stream of successive draws.
-/

namespace Yahoozy

/-- The 15 scoring categories in declaration order (yahoozy.py 29–44). -/
inductive Category where
  | ONES | TWOS | THREES | FOURS | FIVES | SIXES
  | ONE_PAIR | TWO_PAIRS | TOAK | FOAK
  | SSTRAIGHT | LSTRAIGHT | FHOUSE | CHANCE | YATZY
deriving DecidableEq

/-- `list(Category)`: the categories in declaration order. -/
def categoryList : List Category :=
  [.ONES, .TWOS, .THREES, .FOURS, .FIVES, .SIXES,
   .ONE_PAIR, .TWO_PAIRS, .TOAK, .FOAK,
   .SSTRAIGHT, .LSTRAIGHT, .FHOUSE, .CHANCE, .YATZY]

/-- A roll: the Python `Dice` tuple, as a list of the five face values. -/
abbrev Dice := List Nat

/-- A roll is well formed when it has five dice each showing 1–6. -/
def validDice (dice : Dice) : Prop :=
  dice.length = 5 ∧ ∀ x ∈ dice, 1 ≤ x ∧ x ≤ 6

instance (dice : Dice) : Decidable (validDice dice) := by
  unfold validDice; infer_instance

/-- `range(6, 0, -1)`: the faces in descending order, as iterated by the
generator expressions in `Category.compute`. -/
def facesDesc : List Nat := [6, 5, 4, 3, 2, 1]

/-- `set(a) == set(b)` on face lists (Python compares the sets of values). -/
def sameFaceSet (a b : List Nat) : Bool :=
  a.all (fun x => b.contains x) && b.all (fun x => a.contains x)

/-- `Category.compute` (yahoozy.py 46–101): points a roll yields in a
category.  The Python generators `(x for x in range(6, 0, -1) if P x)`
become `facesDesc.filter P`; a `next` call that hits `StopIteration`
(empty filter result) is the 0 branch. -/
def Category.compute (c : Category) (dice : Dice) : Nat :=
  match c with
  | .ONES => dice.count 1
  | .TWOS => dice.count 2 * 2
  | .THREES => dice.count 3 * 3
  | .FOURS => dice.count 4 * 4
  | .FIVES => dice.count 5 * 5
  | .SIXES => dice.count 6 * 6
  | .ONE_PAIR =>
    match facesDesc.filter (fun x => 2 ≤ dice.count x) with
    | f :: _ => f * 2
    | [] => 0
  | .TWO_PAIRS =>
    match facesDesc.filter (fun x => 2 ≤ dice.count x) with
    | f1 :: f2 :: _ => (f1 + f2) * 2
    | _ => 0
  | .TOAK =>
    match facesDesc.filter (fun x => 3 ≤ dice.count x) with
    | f :: _ => f * 3
    | [] => 0
  | .FOAK =>
    match facesDesc.filter (fun x => 4 ≤ dice.count x) with
    | f :: _ => f * 4
    | [] => 0
  | .SSTRAIGHT => if sameFaceSet dice [1, 2, 3, 4, 5] then 15 else 0
  | .LSTRAIGHT => if sameFaceSet dice [2, 3, 4, 5, 6] then 20 else 0
  | .FHOUSE =>
    match facesDesc.filter (fun x => dice.count x = 2),
          facesDesc.filter (fun x => dice.count x = 3) with
    | _ :: _, _ :: _ => dice.sum
    | _, _ => 0
  | .CHANCE => dice.sum
  | .YATZY => if dice.dedup.length = 1 then 50 else 0

example : Category.compute .FHOUSE [2, 2, 3, 3, 3] = 13 := by decide
example : Category.compute .FHOUSE [5, 5, 5, 5, 5] = 0 := by decide
example : Category.compute .TWO_PAIRS [2, 2, 5, 5, 6] = 14 := by decide
example : Category.compute .TWO_PAIRS [2, 2, 2, 5, 6] = 0 := by decide
example : Category.compute .YATZY [4, 4, 4, 4, 4] = 50 := by decide
example : Category.compute .SSTRAIGHT [1, 2, 3, 4, 5] = 15 := by decide
example : Category.compute .LSTRAIGHT [1, 2, 3, 4, 5] = 0 := by decide

/-! ## ScoreSheet (yahoozy.py 104–113)

`ScoreSheet` is a `UserDict` mapping `Category` to points.  We embed the
dictionary as a function `Category → Option Nat` (absent key = `none`).
-/

/-- The per-player dictionary of scored categories. -/
def ScoreSheet := Category → Option Nat

/-- The empty sheet a fresh `Player` gets (yahoozy.py 121). -/
def ScoreSheet.empty : ScoreSheet := fun _ => none

/-- `self.get(c, d)` on a `ScoreSheet` dictionary. -/
def ScoreSheet.getD (ss : ScoreSheet) (c : Category) (d : Nat) : Nat :=
  (ss c).getD d

/-- `ss[cat] = pts`: `UserDict` item assignment, as done by the game loop
at yahoozy.py 652.  A plain dictionary store: it never fails, and it
overwrites any points already recorded for the category. -/
def ScoreSheet.setitem (ss : ScoreSheet) (c : Category) (pts : Nat) : ScoreSheet :=
  fun c' => if c' = c then some pts else ss c'

/-- `len(ss)`: the number of categories present in the dictionary. -/
def ScoreSheet.size (ss : ScoreSheet) : Nat :=
  (categoryList.filter (fun c => (ss c).isSome)).length

/-- `UPPER_SECTION` (yahoozy.py 325–332). -/
def UPPER_SECTION : List Category :=
  [.ONES, .TWOS, .THREES, .FOURS, .FIVES, .SIXES]

/-- `LOWER_SECTION` (yahoozy.py 334–337): every category not in
`UPPER_SECTION`, in declaration order. -/
def LOWER_SECTION : List Category :=
  categoryList.filter (fun c => ¬ c ∈ UPPER_SECTION)

/-- `ScoreSheet.total` (yahoozy.py 108–113). -/
def ScoreSheet.total (ss : ScoreSheet) : Nat :=
  let lower := (LOWER_SECTION.map (fun c => ss.getD c 0)).sum
  let upper := (UPPER_SECTION.map (fun c => ss.getD c 0)).sum
  let bonus := if 63 ≤ upper then 50 else 0
  lower + upper + bonus

/-! ## DiceState (yahoozy.py 282–300)

`random.randint(1, 6)` is modelled by an oracle `rand : Nat → Nat`
giving the stream of draws together with a cursor `k` for the next
draw to consume.
-/

/-- The dice, the 5-bit reroll mask and the rolls-remaining counter.
`rolls` is an `Int` because Python's `self.rolls -= 1` is unclamped. -/
structure DiceState where
  dice : List Nat
  rollmsk : Nat
  rolls : Int
deriving DecidableEq

/-- `DiceState.__init__` (yahoozy.py 285–292): two rolls remaining, five
fresh draws, empty reroll mask.  `k` is the oracle cursor; the five
draws consume `rand k, …, rand (k+4)`. -/
def DiceState.init (rand : Nat → Nat) (k : Nat) : DiceState :=
  { dice := (List.range 5).map (fun i => rand (k + i))
    rollmsk := 0
    rolls := 2 }

/-- The `while self.rollmsk != 0` loop of `DiceState.reroll_dice`
(yahoozy.py 296–299): repeatedly take the highest set bit `n` of the
mask (`bit_length() - 1` = `Nat.log2` for a nonzero mask), redraw die
`n`, and clear bit `n`.  Returns the final dice and final mask together
with the advanced oracle cursor. -/
def rerollLoop (rand : Nat → Nat) (k : Nat) (dice : List Nat) (msk : Nat) :
    List Nat × Nat × Nat :=
  if h : msk = 0 then (dice, msk, k)
  else
    rerollLoop rand (k + 1) (dice.set msk.log2 (rand k)) (msk ^^^ (1 <<< msk.log2))
termination_by msk
decreasing_by
  simp only [Nat.one_shiftLeft]
  have hp : 0 < 2 ^ msk.log2 := Nat.pos_pow_of_pos _ (by decide)
  have hle : 2 ^ msk.log2 ≤ msk := Nat.log2_self_le h
  have hlt : msk < 2 ^ (msk.log2 + 1) := Nat.lt_log2_self
  -- the top bit of msk is set
  have hdiv1 : msk / 2 ^ msk.log2 = 1 := by
    have h1 : 1 ≤ msk / 2 ^ msk.log2 := (Nat.le_div_iff_mul_le hp).2 (by omega)
    have h2 : msk / 2 ^ msk.log2 < 2 := by
      rw [Nat.div_lt_iff_lt_mul hp]
      omega
    omega
  have htop : Nat.testBit msk msk.log2 = true := by
    rw [Nat.testBit_to_div_mod, hdiv1]
    decide
  -- clearing a set bit strictly decreases the mask
  have hxbit : Nat.testBit (msk ^^^ 2 ^ msk.log2) msk.log2 = false := by
    rw [Nat.testBit_xor, htop, Nat.testBit_two_pow_self]
    rfl
  refine Nat.lt_of_testBit msk.log2 hxbit htop (fun j hj => ?_)
  rw [Nat.testBit_xor, Nat.testBit_two_pow_of_ne (by omega), Bool.xor_false]

/-- `DiceState.reroll_dice` (yahoozy.py 294–300): run the reroll loop,
then decrement the rolls-remaining counter by exactly one.  Also returns
the advanced oracle cursor. -/
def DiceState.reroll_dice (ds : DiceState) (rand : Nat → Nat) (k : Nat) :
    DiceState × Nat :=
  let r := rerollLoop rand k ds.dice ds.rollmsk
  ({ dice := r.1, rollmsk := r.2.1, rolls := ds.rolls - 1 }, r.2.2)

/-! ## The game-loop state machine (yahoozy.py 486–727)

The loop's mutable state is the active `DiceState`, the player cursor of
`itertools.cycle(players)`, the `picking_cat` flag and the highlighted
category `rs.togl`.  `game_end` being reached is modelled as a third
phase.  The diagnostic messages written to `rs.hp.diag` on rejected
inputs are modelled as explicit errors. -/

/-- The observable phase of a game session. -/
inductive Phase where
  | Rolling | PickingCategory | GameEnd
deriving DecidableEq

/-- The user-facing validation failures of the game loop
(yahoozy.py 649, 704, 706). -/
inductive GameErr where
  | NoCategorySelected | NoRollsLeft | NoDiceSelected
deriving DecidableEq

/-- A running game session: one score sheet per player, the cyclic
player cursor, the phase, the highlighted category (`rs.togl`, `none`
for `-1`), the dice state, and the oracle cursor `rk` for the next
random draw. -/
structure Session where
  sheets : List ScoreSheet
  cursor : Nat
  phase : Phase
  togl : Option Category
  ds : DiceState
  rk : Nat

/-- The session as `game_loop` sets it up (yahoozy.py 488–493): fresh
dice (consuming draws 0–4), first player active, rolling phase, no
category highlighted (`rs.togl` is `-1` from `main`, line 397). -/
def Session.init (rand : Nat → Nat) (n : Nat) : Session :=
  { sheets := List.replicate n ScoreSheet.empty
    cursor := 0
    phase := .Rolling
    togl := none
    ds := DiceState.init rand 0
    rk := 5 }

/-- The driver→engine commands of the game loop. -/
inductive Cmd where
  /-- Enter on a die checkbox: `ds.rollmsk ^= 1 << rs.sel` (line 709–710). -/
  | toggleDie (i : Fin 5)
  /-- `^A`, mark all dice: `ds.rollmsk = 0b11111` (line 689–690). -/
  | markAll
  /-- `^R`, reroll (lines 699–708). -/
  | reroll
  /-- `^K` "Keep All": freeze dice and pick a category (lines 691–698). -/
  | enterPick
  /-- Enter on a category row (lines 662–663); the cursor can only reach
  rows of `can_select`, the categories absent from the active sheet
  (lines 665–681), so the command carries that guard. -/
  | toggleCat (c : Category)
  /-- `^S`, confirm the highlighted category (lines 643–661). -/
  | confirm

/-- One step of the game loop on command `cmd`: the next session and the
diagnostic error, if the input was rejected.  Keys that do nothing in
the current phase leave the session unchanged. -/
def stepCmd (rand : Nat → Nat) (cmd : Cmd) (s : Session) : Session × Option GameErr :=
  match s.phase, cmd with
  | .Rolling, .toggleDie i => ({ s with ds := { s.ds with rollmsk := s.ds.rollmsk ^^^ (1 <<< i.val) } }, none)
  | .Rolling, .markAll => ({ s with ds := { s.ds with rollmsk := 0b11111 } }, none)
  | .Rolling, .reroll =>
    if s.ds.rolls = 0 then (s, some .NoRollsLeft)
    else if s.ds.rollmsk = 0 then (s, some .NoDiceSelected)
    else
      let r := s.ds.reroll_dice rand s.rk
      ({ s with ds := r.1, rk := r.2 }, none)
  | .Rolling, .enterPick => ({ s with phase := .PickingCategory, togl := none }, none)
  | .PickingCategory, .toggleCat c =>
    if ((s.sheets.getD s.cursor ScoreSheet.empty) c).isSome then (s, none)
    else ({ s with togl := some c }, none)
  | .PickingCategory, .confirm =>
    match s.togl with
    | none => (s, some .NoCategorySelected)
    | some cat =>
      let sheet := s.sheets.getD s.cursor ScoreSheet.empty
      let sheets' := s.sheets.set s.cursor (sheet.setitem cat (cat.compute s.ds.dice))
      let cursor' := (s.cursor + 1) % s.sheets.length
      let phase' :=
        if cursor' = 0 ∧
            ScoreSheet.size (sheets'.getD cursor' ScoreSheet.empty) = categoryList.length
        then Phase.GameEnd else Phase.Rolling
      ({ sheets := sheets'
         cursor := cursor'
         phase := phase'
         togl := s.togl
         ds := DiceState.init rand s.rk
         rk := s.rk + 5 }, none)
  | _, _ => (s, none)

/-- The sessions a fixed random stream can reach: the initial session of
a non-empty roster, closed under game-loop steps. -/
inductive Reachable (rand : Nat → Nat) : Session → Prop where
  | init (n : Nat) (hn : 0 < n) : Reachable rand (Session.init rand n)
  | step (cmd : Cmd) (s : Session) (h : Reachable rand s) :
      Reachable rand (stepCmd rand cmd s).1

/-! ## Leaderboard merge (yahoozy.py 735–745)

`LBEntry = tuple[int, str]` (yahoozy.py 26): `(score, name)`.  Names are
embedded as their lists of characters so that both the lexicographic
comparison of `bisect.insort`'s key and the byte-level history format
can be stated. -/

/-- `(score, name)`, a persisted leaderboard entry. -/
abbrev LBEntry := Int × List Char

/-- Python string `<`: lexicographic by code point (`Char`'s order is
code-point order). -/
def strLt : List Char → List Char → Bool
  | _, [] => false
  | [], _ :: _ => true
  | a :: as, b :: bs => decide (a < b) || (a == b && strLt as bs)

/-- The strict order of the sort key `lambda x: (-x[0], x[1])`
(yahoozy.py 742): tuples compare lexicographically. -/
def keyLt (a b : LBEntry) : Bool :=
  decide (-a.1 < -b.1) || (decide (-a.1 = -b.1) && strLt a.2 b.2)

/-- `bisect.insort` (an `insort_right`): insert `x` before the first
element strictly greater under the key, i.e. after every element whose
key is ≤ `x`'s. -/
def insort (x : LBEntry) : List LBEntry → List LBEntry
  | [] => [x]
  | y :: ys => if keyLt x y then x :: y :: ys else y :: insort x ys

/-- The merge loop of `game_end` (yahoozy.py 737–742): insort each
finished player's `(total, name)` into the loaded history, in roster
order. -/
def mergeHist (hist : List LBEntry) (finals : List LBEntry) : List LBEntry :=
  finals.foldl (fun h p => insort p h) hist

/-! ## History persistence (yahoozy.py 813–829)

The history file is a list of characters.  `savehist` writes
`"%d\x1F%s\n" % (score, name)` per entry; `loadhist` reads it back line
by line (the full read, `n = -1`).  Python's `%d` rendering and `int`
parsing are embedded as decimal numerals over characters. -/

/-- The ASCII unit separator `\x1F`. -/
def SEP : Char := Char.ofNat 31

/-- The character of a decimal digit. -/
def digitChar (d : Nat) : Char := Char.ofNat (48 + d)

/-- The decimal digits of a natural number, most significant first. -/
def natRepr (n : Nat) : List Char :=
  if n < 10 then [digitChar n]
  else natRepr (n / 10) ++ [digitChar (n % 10)]
decreasing_by exact Nat.div_lt_self (by omega) (by decide)

/-- `"%d" % z`: decimal rendering of an integer, `-` sign for negatives. -/
def intRepr : Int → List Char
  | Int.ofNat n => natRepr n
  | Int.negSucc n => '-' :: natRepr (n + 1)

/-- One line of `savehist` (yahoozy.py 816): score, `\x1F`, name, `\n`. -/
def entryLine (e : LBEntry) : List Char :=
  intRepr e.1 ++ SEP :: e.2 ++ ['\n']

/-- `savehist` (yahoozy.py 813–816): the file contents after writing
every entry in order. -/
def savehist (xs : List LBEntry) : List Char :=
  (xs.map entryLine).flatten

/-- The numeric value of a decimal digit character, if it is one. -/
def digitVal (c : Char) : Option Nat :=
  if 48 ≤ c.toNat ∧ c.toNat ≤ 57 then some (c.toNat - 48) else none

/-- One digit of decimal parsing: shift the accumulator and add the
digit, failing on a non-digit. -/
def parseDigitStep (acc : Option Nat) (c : Char) : Option Nat :=
  acc.bind (fun a => (digitVal c).map (fun d => a * 10 + d))

/-- Decimal parsing of a nonempty all-digit string (the shape Python's
`int` accepts among the strings `savehist` writes). -/
def parseNat (cs : List Char) : Option Nat :=
  match cs with
  | [] => none
  | _ :: _ => cs.foldl parseDigitStep (some 0)

/-- `int(s)` on an optionally `-`-signed decimal string. -/
def parseInt : List Char → Option Int
  | [] => none
  | c :: cs =>
    if c = '-' then (parseNat cs).map (fun m : Nat => -(m : Int))
    else (parseNat (c :: cs)).map (fun m : Nat => (m : Int))

/-- Split a character list at every occurrence of `sep` (the separator
itself is dropped); always returns one more chunk than separators. -/
def splitOn (sep : Char) : List Char → List (List Char)
  | [] => [[]]
  | c :: cs =>
    if c = sep then [] :: splitOn sep cs
    else
      match splitOn sep cs with
      | [] => [[c]]
      | l :: ls => (c :: l) :: ls

/-- One iteration of the `loadhist` loop (yahoozy.py 827–828):
`line.rstrip("\n").split("\x1F")` must give exactly the two fields
`score` and `name` (any other arity is Python's unpack `ValueError`),
and `int(score)` must parse. -/
def parseLine (line : List Char) : Option LBEntry :=
  match splitOn SEP line with
  | [s, n] => (parseInt s).map (fun z => (z, n))
  | _ => none

/-- `loadhist` with `n = -1` (yahoozy.py 818–829): read lines until
`readline` returns the empty string (end of file), parsing each.  A file
ending in `\n` yields a final empty read, which terminates the loop; a
trailing chunk without `\n` is still a line.  `none` models the
exceptions `loadhist` can raise on malformed input. -/
def loadhist (file : List Char) : Option (List LBEntry) :=
  let chunks := splitOn '\n' file
  let lines := if chunks.getLast? = some [] then chunks.dropLast else chunks
  lines.mapM parseLine

/-! ## Verification-side definitions -/

/-- The score sheet of player `i` of a session. -/
def sheetAt (s : Session) (i : Nat) : ScoreSheet :=
  s.sheets.getD i ScoreSheet.empty

/-- The size bookkeeping a running game maintains: before the terminal
phase the players already past in the current round have exactly one
entry more than the rest; in the terminal phase every sheet is full. -/
def SizeProfile (s : Session) : Prop :=
  (s.phase = .GameEnd ∧ ∀ i, i < s.sheets.length → (sheetAt s i).size = 15) ∨
  (s.phase ≠ .GameEnd ∧ ∃ k, ∀ i, i < s.sheets.length →
    (sheetAt s i).size = if i < s.cursor then k + 1 else k)

/-- The game-loop invariant: a non-empty roster, a valid cursor, a
highlighted category always absent from the active sheet, and the size
profile. -/
def Inv (s : Session) : Prop :=
  0 < s.sheets.length ∧
  s.cursor < s.sheets.length ∧
  (s.phase = .PickingCategory → ∀ c, s.togl = some c → sheetAt s s.cursor c = none) ∧
  SizeProfile s

/-- The non-strict leaderboard order the spec describes: score
descending, and among equal scores name ascending (code point
lexicographic). -/
def specLe (a b : LBEntry) : Prop :=
  b.1 < a.1 ∨ (a.1 = b.1 ∧ (a.2 = b.2 ∨ strLt a.2 b.2 = true))

/-! # Theorems -/

theorem mem_facesDesc {x : Nat} : x ∈ facesDesc ↔ 1 ≤ x ∧ x ≤ 6 := by
  simp only [facesDesc, List.mem_cons, List.not_mem_nil, or_false]
  omega

theorem mem_facesDesc_of_count {dice : Dice} {x c : Nat}
    (h : ∀ y ∈ dice, 1 ≤ y ∧ y ≤ 6) (hc : dice.count x = c) (hc0 : 0 < c) :
    x ∈ facesDesc := by
  have hx : x ∈ dice := by
    rw [← List.count_pos_iff]
    omega
  exact mem_facesDesc.2 (h x hx)

theorem facesDesc_filter_sorted (p : Nat → Bool) :
    (facesDesc.filter p).Pairwise (fun a b => b < a) := by
  refine List.Pairwise.filter p ?_
  decide

theorem filter_ne_nil_of_mem {p : Nat → Bool} {x : Nat}
    (hx : x ∈ facesDesc) (hp : p x = true) : facesDesc.filter p ≠ [] := by
  intro hn
  rw [List.filter_eq_nil_iff] at hn
  exact absurd hp (by simpa using hn x hx)

/-- **C5**  Full House scores the sum of the five dice exactly when some
face shows count 2 and a different face count 3 simultaneously, 0
otherwise; `(2,2,3,3,3)` scores 13 and `(5,5,5,5,5)` scores 0. -/
theorem fullHouse_spec (dice : Dice) (h : validDice dice) :
    ((∃ f g, f ≠ g ∧ dice.count f = 2 ∧ dice.count g = 3) →
      Category.compute .FHOUSE dice = dice.sum) ∧
    ((¬ ∃ f g, f ≠ g ∧ dice.count f = 2 ∧ dice.count g = 3) →
      Category.compute .FHOUSE dice = 0) ∧
    Category.compute .FHOUSE [2, 2, 3, 3, 3] = 13 ∧
    Category.compute .FHOUSE [5, 5, 5, 5, 5] = 0 := by
  obtain ⟨-, hrange⟩ := h
  refine ⟨?_, ?_, by decide, by decide⟩
  · rintro ⟨f, g, hfg, hf, hg⟩
    have h2 : facesDesc.filter (fun x => dice.count x = 2) ≠ [] :=
      filter_ne_nil_of_mem (mem_facesDesc_of_count hrange hf (by omega)) (by simpa using hf)
    have h3 : facesDesc.filter (fun x => dice.count x = 3) ≠ [] :=
      filter_ne_nil_of_mem (mem_facesDesc_of_count hrange hg (by omega)) (by simpa using hg)
    obtain ⟨a, as, ha⟩ := List.exists_cons_of_ne_nil h2
    obtain ⟨b, bs, hb⟩ := List.exists_cons_of_ne_nil h3
    simp [Category.compute, ha, hb]
  · intro hne
    by_cases h2 : facesDesc.filter (fun x => dice.count x = 2) = []
    · simp [Category.compute, h2]
    · by_cases h3 : facesDesc.filter (fun x => dice.count x = 3) = []
      · obtain ⟨a, as, ha⟩ := List.exists_cons_of_ne_nil h2
        simp [Category.compute, ha, h3]
      · exfalso
        obtain ⟨a, as, ha⟩ := List.exists_cons_of_ne_nil h2
        obtain ⟨b, bs, hb⟩ := List.exists_cons_of_ne_nil h3
        have haf : a ∈ facesDesc.filter (fun x => dice.count x = 2) := by
          rw [ha]; exact List.mem_cons_self a as
        have hbf : b ∈ facesDesc.filter (fun x => dice.count x = 3) := by
          rw [hb]; exact List.mem_cons_self b bs
        rw [List.mem_filter] at haf hbf
        refine hne ⟨a, b, ?_, by simpa using haf.2, by simpa using hbf.2⟩
        intro hab
        have h2' : dice.count a = 2 := by simpa using haf.2
        have h3' : dice.count b = 3 := by simpa using hbf.2
        rw [hab] at h2'
        omega

/-- Witness for `fullHouse_spec` at the roll `(2,2,3,3,3)`. -/
theorem fullHouse_spec_witness :
    validDice [2, 2, 3, 3, 3] ∧
    Category.compute .FHOUSE [2, 2, 3, 3, 3] = 13 :=
  ⟨by decide, (fullHouse_spec [2, 2, 3, 3, 3] (by decide)).2.2.1⟩

/-- **C6**  Two Pairs scores `2*(f1+f2)` for the two highest distinct
faces `f1 > f2` with count ≥ 2, and 0 when fewer than two such faces
exist; `(2,2,5,5,6)` scores 14 and `(2,2,2,5,6)` scores 0. -/
theorem twoPairs_spec (dice : Dice) (h : validDice dice) :
    ((∃ f1 f2, f1 ≠ f2 ∧ 2 ≤ dice.count f1 ∧ 2 ≤ dice.count f2) →
      ∃ f1 f2, f2 < f1 ∧ 2 ≤ dice.count f1 ∧ 2 ≤ dice.count f2 ∧
        (∀ g, 2 ≤ dice.count g → g ≤ f1) ∧
        (∀ g, 2 ≤ dice.count g → g ≠ f1 → g ≤ f2) ∧
        Category.compute .TWO_PAIRS dice = 2 * (f1 + f2)) ∧
    ((¬ ∃ f1 f2, f1 ≠ f2 ∧ 2 ≤ dice.count f1 ∧ 2 ≤ dice.count f2) →
      Category.compute .TWO_PAIRS dice = 0) ∧
    Category.compute .TWO_PAIRS [2, 2, 5, 5, 6] = 14 ∧
    Category.compute .TWO_PAIRS [2, 2, 2, 5, 6] = 0 := by
  obtain ⟨-, hrange⟩ := h
  have hmem : ∀ g : Nat, 2 ≤ dice.count g →
      g ∈ facesDesc.filter (fun x => 2 ≤ dice.count x) := by
    intro g hg
    rw [List.mem_filter]
    exact ⟨mem_facesDesc_of_count hrange rfl (by omega), by simpa using hg⟩
  have hmem' : ∀ g : Nat, g ∈ facesDesc.filter (fun x => 2 ≤ dice.count x) →
      2 ≤ dice.count g := by
    intro g hg
    rw [List.mem_filter] at hg
    simpa using hg.2
  have hsorted := facesDesc_filter_sorted (fun x => 2 ≤ dice.count x)
  refine ⟨?_, ?_, by decide, by decide⟩
  · rintro ⟨f1, f2, hne, h1, h2⟩
    cases hl : facesDesc.filter (fun x => 2 ≤ dice.count x) with
    | nil =>
      exact absurd (hl ▸ hmem f1 h1) (List.not_mem_nil f1)
    | cons a tail =>
      cases tail with
      | nil =>
        have e1 := hl ▸ hmem f1 h1
        have e2 := hl ▸ hmem f2 h2
        simp only [List.mem_singleton] at e1 e2
        exact absurd (e1.trans e2.symm) hne
      | cons b bs =>
        rw [hl] at hsorted
        rw [List.pairwise_cons] at hsorted
        obtain ⟨hlta, hsorted2⟩ := hsorted
        rw [List.pairwise_cons] at hsorted2
        obtain ⟨hltb, -⟩ := hsorted2
        have hca : 2 ≤ dice.count a := hmem' a (hl ▸ List.mem_cons_self a (b :: bs))
        have hcb : 2 ≤ dice.count b :=
          hmem' b (hl ▸ List.mem_cons_of_mem a (List.mem_cons_self b bs))
        have hcomp : Category.compute .TWO_PAIRS dice = (a + b) * 2 := by
          simp [Category.compute, hl]
        refine ⟨a, b, hlta b (List.mem_cons_self b bs), hca, hcb, ?_, ?_, by omega⟩
        · intro g hg
          have := hl ▸ hmem g hg
          rcases List.mem_cons.1 this with h' | h'
          · omega
          · exact Nat.le_of_lt (hlta g h')
        · intro g hg hga
          have := hl ▸ hmem g hg
          rcases List.mem_cons.1 this with h' | h'
          · exact absurd h' hga
          · rcases List.mem_cons.1 h' with h'' | h''
            · omega
            · exact Nat.le_of_lt (hltb g h'')
  · intro hne
    cases hl : facesDesc.filter (fun x => 2 ≤ dice.count x) with
    | nil => simp [Category.compute, hl]
    | cons a tail =>
      cases tail with
      | nil => simp [Category.compute, hl]
      | cons b bs =>
        exfalso
        rw [hl] at hsorted
        rw [List.pairwise_cons] at hsorted
        have hba : b < a := hsorted.1 b (List.mem_cons_self b bs)
        have hca : 2 ≤ dice.count a := hmem' a (hl ▸ List.mem_cons_self a (b :: bs))
        have hcb : 2 ≤ dice.count b :=
          hmem' b (hl ▸ List.mem_cons_of_mem a (List.mem_cons_self b bs))
        exact hne ⟨a, b, by omega, hca, hcb⟩

/-- Witness for `twoPairs_spec` at the roll `(2,2,5,5,6)`. -/
theorem twoPairs_spec_witness :
    validDice [2, 2, 5, 5, 6] ∧
    Category.compute .TWO_PAIRS [2, 2, 5, 5, 6] = 14 :=
  ⟨by decide, (twoPairs_spec [2, 2, 5, 5, 6] (by decide)).2.2.1⟩

/-- **C9**  `total()` is `lower_sum + upper_sum + bonus`: the upper sum
ranges over Ones–Sixes, the lower sum over the other nine categories
(absent categories contributing 0 through `get(c, 0)`), and the bonus is
50 exactly when the upper sum reaches 63.  Concretely, upper entries
summing to 63 earn the 50 bonus and 62 does not. -/
theorem total_spec (ss : ScoreSheet) :
    ss.total =
      ((([.ONE_PAIR, .TWO_PAIRS, .TOAK, .FOAK, .SSTRAIGHT, .LSTRAIGHT,
          .FHOUSE, .CHANCE, .YATZY] : List Category).map (fun c => ss.getD c 0)).sum +
       ((UPPER_SECTION.map (fun c => ss.getD c 0)).sum) +
       (if 63 ≤ (UPPER_SECTION.map (fun c => ss.getD c 0)).sum then 50 else 0)) ∧
    (((((((ScoreSheet.empty.setitem .ONES 3).setitem .TWOS 6).setitem .THREES 9
        ).setitem .FOURS 12).setitem .FIVES 15).setitem .SIXES 18)).total = 113 ∧
    (((((((ScoreSheet.empty.setitem .ONES 2).setitem .TWOS 6).setitem .THREES 9
        ).setitem .FOURS 12).setitem .FIVES 15).setitem .SIXES 18)).total = 62 := by
  refine ⟨?_, by decide, by decide⟩
  have hls : LOWER_SECTION =
      ([.ONE_PAIR, .TWO_PAIRS, .TOAK, .FOAK, .SSTRAIGHT, .LSTRAIGHT,
        .FHOUSE, .CHANCE, .YATZY] : List Category) := by decide
  rw [ScoreSheet.total, hls]

/-- **C2** counterexample: assigning to a category already present in a
`ScoreSheet` does not fail and does not preserve the stored points — the
`UserDict` store plainly overwrites. -/
theorem setitem_overwrites_counterexample :
    ((ScoreSheet.empty.setitem .ONES 3).setitem .ONES 5) .ONES = some 5 ∧
    (ScoreSheet.empty.setitem .ONES 3) .ONES = some 3 ∧
    ¬ ((ScoreSheet.empty.setitem .ONES 3).setitem .ONES 5) .ONES = some 3 :=
  ⟨rfl, rfl, by decide⟩

/-- **C2** amended: `ScoreSheet` has no failing `set`; `ss[cat] = pts`
always succeeds, stores `pts` for `cat` (overwriting any previous
points) and leaves every other category unchanged. -/
theorem setitem_spec (ss : ScoreSheet) (c : Category) (pts : Nat) :
    (ss.setitem c pts) c = some pts ∧
    ∀ c', c' ≠ c → (ss.setitem c pts) c' = ss c' := by
  constructor
  · simp [ScoreSheet.setitem]
  · intro c' hc'
    simp [ScoreSheet.setitem, hc']

/-- Witness for `setitem_spec`: a concrete overwrite and a concrete
untouched category. -/
theorem setitem_spec_witness :
    ((ScoreSheet.empty.setitem .ONES 3).setitem .ONES 5) .ONES = some 5 ∧
    ((ScoreSheet.empty.setitem .ONES 3).setitem .ONES 5) .TWOS =
      (ScoreSheet.empty.setitem .ONES 3) .TWOS :=
  ⟨(setitem_spec (ScoreSheet.empty.setitem .ONES 3) .ONES 5).1,
   (setitem_spec (ScoreSheet.empty.setitem .ONES 3) .ONES 5).2 .TWOS (by decide)⟩

theorem sum_le_of_all_le (l : List Nat) (n : Nat) (h : ∀ x ∈ l, x ≤ n) :
    l.sum ≤ n * l.length := by
  induction l with
  | nil => simp
  | cons a l ih =>
    rw [List.sum_cons, List.length_cons]
    have ha := h a (List.mem_cons_self a l)
    have hl := ih (fun x hx => h x (List.mem_cons_of_mem a hx))
    have : n * (l.length + 1) = n + n * l.length := by ring
    omega

/-- **C8**  `compute` is a pure total function by construction; on a
valid five-die roll every category scores at most 50 (hence in
`[0, 50]`, scores being naturals), and a score of 50 is only possible
in the Yatzy category. -/
theorem compute_bounds (c : Category) (dice : Dice) (h : validDice dice) :
    Category.compute c dice ≤ 50 ∧
    (Category.compute c dice = 50 → c = .YATZY) := by
  obtain ⟨hlen, hrange⟩ := h
  have hc : ∀ x : Nat, dice.count x ≤ 5 := by
    intro x
    have := List.count_le_length (a := x) (l := dice)
    omega
  have hsum : dice.sum ≤ 30 := by
    have := sum_le_of_all_le dice 6 (fun x hx => (hrange x hx).2)
    rw [hlen] at this
    omega
  have hface : ∀ {a : Nat} {p : Nat → Bool} {tail : List Nat},
      facesDesc.filter p = a :: tail → a ≤ 6 := by
    intro a p tail hl
    have ha : a ∈ facesDesc.filter p := hl ▸ List.mem_cons_self a tail
    rw [List.mem_filter] at ha
    exact (mem_facesDesc.1 ha.1).2
  cases c
  case ONES =>
    have h1 := hc 1
    have hval : Category.compute .ONES dice ≤ 30 := by
      simp only [Category.compute]; omega
    exact ⟨by omega, fun h50 => (by omega : False).elim⟩
  case TWOS =>
    have h1 := hc 2
    have hval : Category.compute .TWOS dice ≤ 30 := by
      simp only [Category.compute]; omega
    exact ⟨by omega, fun h50 => (by omega : False).elim⟩
  case THREES =>
    have h1 := hc 3
    have hval : Category.compute .THREES dice ≤ 30 := by
      simp only [Category.compute]; omega
    exact ⟨by omega, fun h50 => (by omega : False).elim⟩
  case FOURS =>
    have h1 := hc 4
    have hval : Category.compute .FOURS dice ≤ 30 := by
      simp only [Category.compute]; omega
    exact ⟨by omega, fun h50 => (by omega : False).elim⟩
  case FIVES =>
    have h1 := hc 5
    have hval : Category.compute .FIVES dice ≤ 30 := by
      simp only [Category.compute]; omega
    exact ⟨by omega, fun h50 => (by omega : False).elim⟩
  case SIXES =>
    have h1 := hc 6
    have hval : Category.compute .SIXES dice ≤ 30 := by
      simp only [Category.compute]; omega
    exact ⟨by omega, fun h50 => (by omega : False).elim⟩
  case ONE_PAIR =>
    have hval : Category.compute .ONE_PAIR dice ≤ 30 := by
      cases hl : facesDesc.filter (fun x => 2 ≤ dice.count x) with
      | nil => simp [Category.compute, hl]
      | cons a tail =>
        have := hface hl
        simp [Category.compute, hl]
        omega
    exact ⟨by omega, fun h50 => (by omega : False).elim⟩
  case TWO_PAIRS =>
    have hval : Category.compute .TWO_PAIRS dice ≤ 30 := by
      cases hl : facesDesc.filter (fun x => 2 ≤ dice.count x) with
      | nil => simp [Category.compute, hl]
      | cons a tail =>
        cases tail with
        | nil => simp [Category.compute, hl]
        | cons b bs =>
          have ha := hface hl
          have hb : b ≤ 6 := by
            have hbm : b ∈ facesDesc.filter (fun x => 2 ≤ dice.count x) :=
              hl ▸ List.mem_cons_of_mem a (List.mem_cons_self b bs)
            rw [List.mem_filter] at hbm
            exact (mem_facesDesc.1 hbm.1).2
          simp [Category.compute, hl]
          omega
    exact ⟨by omega, fun h50 => (by omega : False).elim⟩
  case TOAK =>
    have hval : Category.compute .TOAK dice ≤ 30 := by
      cases hl : facesDesc.filter (fun x => 3 ≤ dice.count x) with
      | nil => simp [Category.compute, hl]
      | cons a tail =>
        have := hface hl
        simp [Category.compute, hl]
        omega
    exact ⟨by omega, fun h50 => (by omega : False).elim⟩
  case FOAK =>
    have hval : Category.compute .FOAK dice ≤ 30 := by
      cases hl : facesDesc.filter (fun x => 4 ≤ dice.count x) with
      | nil => simp [Category.compute, hl]
      | cons a tail =>
        have := hface hl
        simp [Category.compute, hl]
        omega
    exact ⟨by omega, fun h50 => (by omega : False).elim⟩
  case SSTRAIGHT =>
    have hval : Category.compute .SSTRAIGHT dice ≤ 30 := by
      simp only [Category.compute]
      split <;> omega
    exact ⟨by omega, fun h50 => (by omega : False).elim⟩
  case LSTRAIGHT =>
    have hval : Category.compute .LSTRAIGHT dice ≤ 30 := by
      simp only [Category.compute]
      split <;> omega
    exact ⟨by omega, fun h50 => (by omega : False).elim⟩
  case FHOUSE =>
    have hval : Category.compute .FHOUSE dice ≤ 30 := by
      simp only [Category.compute]
      split <;> omega
    exact ⟨by omega, fun h50 => (by omega : False).elim⟩
  case CHANCE =>
    have hval : Category.compute .CHANCE dice ≤ 30 := by
      simp only [Category.compute]; omega
    exact ⟨by omega, fun h50 => (by omega : False).elim⟩
  case YATZY =>
    refine ⟨?_, fun _ => rfl⟩
    simp only [Category.compute]
    split <;> omega

/-- Witness for `compute_bounds` at Chance on `(3,3,3,3,3)`. -/
theorem compute_bounds_witness :
    validDice [3, 3, 3, 3, 3] ∧ Category.compute .CHANCE [3, 3, 3, 3, 3] ≤ 50 :=
  ⟨by decide, (compute_bounds .CHANCE [3, 3, 3, 3, 3] (by decide)).1⟩

/-! ### The reroll loop -/

/-- A nonzero mask has its `bit_length() - 1` bit set. -/
theorem testBit_log2_self {msk : Nat} (h : msk ≠ 0) :
    Nat.testBit msk msk.log2 = true := by
  have hp : 0 < 2 ^ msk.log2 := Nat.pos_pow_of_pos _ (by decide)
  have hle : 2 ^ msk.log2 ≤ msk := Nat.log2_self_le h
  have hlt : msk < 2 ^ (msk.log2 + 1) := Nat.lt_log2_self
  have hdiv1 : msk / 2 ^ msk.log2 = 1 := by
    have h1 : 1 ≤ msk / 2 ^ msk.log2 := (Nat.le_div_iff_mul_le hp).2 (by omega)
    have h2 : msk / 2 ^ msk.log2 < 2 := by
      rw [Nat.div_lt_iff_lt_mul hp]
      omega
    omega
  rw [Nat.testBit_to_div_mod, hdiv1]
  decide

/-- Clearing the top bit strictly decreases a nonzero mask. -/
theorem xor_top_bit_lt {msk : Nat} (h : msk ≠ 0) :
    msk ^^^ (1 <<< msk.log2) < msk := by
  rw [Nat.one_shiftLeft]
  have htop := testBit_log2_self h
  have hxbit : Nat.testBit (msk ^^^ 2 ^ msk.log2) msk.log2 = false := by
    rw [Nat.testBit_xor, htop, Nat.testBit_two_pow_self]
    rfl
  refine Nat.lt_of_testBit msk.log2 hxbit htop (fun j hj => ?_)
  rw [Nat.testBit_xor, Nat.testBit_two_pow_of_ne (by omega), Bool.xor_false]

/-- The reroll loop always terminates with an empty mask. -/
theorem rerollLoop_msk (rand : Nat → Nat) (k : Nat) (dice : List Nat) (msk : Nat) :
    (rerollLoop rand k dice msk).2.1 = 0 := by
  induction msk using Nat.strong_induction_on generalizing k dice with
  | _ msk ih =>
    rw [rerollLoop]
    split
    · simpa
    · exact ih _ (xor_top_bit_lt (by assumption)) _ _

/-- Dice at positions not marked in the mask are untouched by the loop. -/
theorem rerollLoop_frame (rand : Nat → Nat) (k : Nat) (dice : List Nat) (msk : Nat)
    (i : Nat) (hi : Nat.testBit msk i = false) :
    (rerollLoop rand k dice msk).1[i]? = dice[i]? := by
  induction msk using Nat.strong_induction_on generalizing k dice with
  | _ msk ih =>
    rw [rerollLoop]
    split
    · rfl
    · rename_i h
      have hne : msk.log2 ≠ i := by
        intro he
        have htop := testBit_log2_self h
        rw [he] at htop
        rw [htop] at hi
        cases hi
      have hi' : Nat.testBit (msk ^^^ (1 <<< msk.log2)) i = false := by
        rw [Nat.one_shiftLeft, Nat.testBit_xor, hi, Nat.testBit_two_pow_of_ne hne]
        rfl
      rw [ih _ (xor_top_bit_lt h) _ _ hi']
      exact List.getElem?_set_ne hne

/-- Dice at marked positions hold an oracle draw after the loop, provided
the mask only marks existing positions. -/
theorem rerollLoop_selected (rand : Nat → Nat) (k : Nat) (dice : List Nat) (msk : Nat)
    (hmsk : msk < 2 ^ dice.length) (i : Nat) (hi : Nat.testBit msk i = true) :
    ∃ j, (rerollLoop rand k dice msk).1[i]? = some (rand j) := by
  induction msk using Nat.strong_induction_on generalizing k dice with
  | _ msk ih =>
    rw [rerollLoop]
    split
    · rename_i h
      rw [h, Nat.zero_testBit] at hi
      cases hi
    · rename_i h
      have hlog : msk.log2 < dice.length := (Nat.log2_lt h).2 hmsk
      by_cases hil : i = msk.log2
      · have hcleared : Nat.testBit (msk ^^^ (1 <<< Nat.log2 msk)) i = false := by
          rw [hil, Nat.one_shiftLeft, Nat.testBit_xor, testBit_log2_self h,
            Nat.testBit_two_pow_self]
          rfl
        refine ⟨k, ?_⟩
        rw [rerollLoop_frame rand _ _ _ _ hcleared, hil]
        exact List.getElem?_set_self hlog
      · have hi' : Nat.testBit (msk ^^^ (1 <<< msk.log2)) i = true := by
          rw [Nat.one_shiftLeft, Nat.testBit_xor, hi,
            Nat.testBit_two_pow_of_ne (fun he => hil he.symm)]
          rfl
        refine ih _ (xor_top_bit_lt h) _ _ ?_ hi'
        rw [List.length_set]
        exact Nat.lt_trans (xor_top_bit_lt h) hmsk

/-- **C10**  `reroll_dice` only modifies the dice whose positions are
marked in the reroll mask — every unmarked position keeps exactly its
previous value — and afterwards the mask is 0. -/
theorem reroll_dice_frame (ds : DiceState) (rand : Nat → Nat) (k : Nat) :
    (∀ i, Nat.testBit ds.rollmsk i = false →
      ((ds.reroll_dice rand k).1.dice)[i]? = ds.dice[i]?) ∧
    (ds.reroll_dice rand k).1.rollmsk = 0 :=
  ⟨fun i hi => rerollLoop_frame rand k ds.dice ds.rollmsk i hi,
   rerollLoop_msk rand k ds.dice ds.rollmsk⟩

/-- Witness for `reroll_dice_frame`: with mask `0b00110`, die 0 keeps its
value and the mask is cleared. -/
theorem reroll_dice_frame_witness :
    Nat.testBit 6 0 = false ∧
    ((DiceState.mk [1, 2, 3, 4, 5] 6 2).reroll_dice (fun _ => 4) 0).1.dice[0]? =
      ([1, 2, 3, 4, 5] : List Nat)[0]? ∧
    ((DiceState.mk [1, 2, 3, 4, 5] 6 2).reroll_dice (fun _ => 4) 0).1.rollmsk = 0 :=
  ⟨by decide,
   (reroll_dice_frame (DiceState.mk [1, 2, 3, 4, 5] 6 2) (fun _ => 4) 0).1 0 (by decide),
   (reroll_dice_frame (DiceState.mk [1, 2, 3, 4, 5] 6 2) (fun _ => 4) 0).2⟩

/-- **C7**  In the Rolling phase: with no rolls left `Reroll` fails with
`NoRollsLeft`; otherwise with an empty selection it fails with
`NoDiceSelected` — in both cases returning the session unchanged.  On
success the selection is cleared, rolls-remaining drops by exactly 1
whatever the selection was, each selected die holds a fresh draw in
`[1, 6]`, and nothing else of the session changes.  Consequently a turn
that starts with 2 rolls remaining cannot see a third successful
`Reroll`: after two successes (with dice arbitrarily reselected in
between) the next attempt fails with `NoRollsLeft`. -/
theorem reroll_cmd_spec (rand : Nat → Nat) (s : Session)
    (hphase : s.phase = .Rolling) :
    (s.ds.rolls = 0 → stepCmd rand .reroll s = (s, some .NoRollsLeft)) ∧
    (s.ds.rolls ≠ 0 → s.ds.rollmsk = 0 →
      stepCmd rand .reroll s = (s, some .NoDiceSelected)) ∧
    (s.ds.rolls ≠ 0 → s.ds.rollmsk ≠ 0 →
      (stepCmd rand .reroll s).2 = none ∧
      (stepCmd rand .reroll s).1.ds.rollmsk = 0 ∧
      (stepCmd rand .reroll s).1.ds.rolls = s.ds.rolls - 1 ∧
      (stepCmd rand .reroll s).1.sheets = s.sheets ∧
      (stepCmd rand .reroll s).1.cursor = s.cursor ∧
      (stepCmd rand .reroll s).1.phase = s.phase ∧
      (stepCmd rand .reroll s).1.togl = s.togl ∧
      ((∀ j, 1 ≤ rand j ∧ rand j ≤ 6) → s.ds.rollmsk < 2 ^ s.ds.dice.length →
        ∀ i, Nat.testBit s.ds.rollmsk i = true →
          ∃ v, (stepCmd rand .reroll s).1.ds.dice[i]? = some v ∧ 1 ≤ v ∧ v ≤ 6)) ∧
    (s.ds.rolls = 2 →
      ∀ m₁ m₂ : Nat, ∀ s₁ s₂ : Session,
        stepCmd rand .reroll s = (s₁, none) →
        stepCmd rand .reroll { s₁ with ds := { s₁.ds with rollmsk := m₁ } } = (s₂, none) →
        stepCmd rand .reroll { s₂ with ds := { s₂.ds with rollmsk := m₂ } } =
          ({ s₂ with ds := { s₂.ds with rollmsk := m₂ } }, some .NoRollsLeft)) := by
  obtain ⟨sh, cu, ph, tg, ds, rk⟩ := s
  have hph : ph = .Rolling := hphase
  subst hph
  refine ⟨?_, ?_, ?_, ?_⟩
  · intro h0
    have h0' : ds.rolls = 0 := h0
    show (if ds.rolls = 0 then _ else _) = _
    rw [if_pos h0']
  · intro h0 hm
    have h0' : ¬ ds.rolls = 0 := h0
    have hm' : ds.rollmsk = 0 := hm
    show (if ds.rolls = 0 then _ else _) = _
    rw [if_neg h0', if_pos hm']
  · intro h0 hm
    have h0' : ¬ ds.rolls = 0 := h0
    have hm' : ¬ ds.rollmsk = 0 := hm
    have hstep : stepCmd rand .reroll (Session.mk sh cu .Rolling tg ds rk) =
        (Session.mk sh cu .Rolling tg (ds.reroll_dice rand rk).1
          (ds.reroll_dice rand rk).2, none) := by
      show (if ds.rolls = 0 then _ else _) = _
      rw [if_neg h0', if_neg hm']
    rw [hstep]
    refine ⟨rfl, rerollLoop_msk rand rk ds.dice ds.rollmsk, rfl, rfl, rfl, rfl, rfl, ?_⟩
    intro hrand hlen i hi
    obtain ⟨j, hj⟩ := rerollLoop_selected rand rk ds.dice ds.rollmsk hlen i hi
    exact ⟨rand j, hj, (hrand j).1, (hrand j).2⟩
  · intro h2 m₁ m₂ s₁ s₂ hstep1 hstep2
    have h2' : ds.rolls = 2 := h2
    have hr0 : ¬ ds.rolls = 0 := by omega
    by_cases hm : ds.rollmsk = 0
    · rw [show stepCmd rand .reroll (Session.mk sh cu .Rolling tg ds rk) =
          (Session.mk sh cu .Rolling tg ds rk, some .NoDiceSelected) from by
        show (if ds.rolls = 0 then _ else _) = _
        rw [if_neg hr0, if_pos hm]] at hstep1
      cases hstep1
    · rw [show stepCmd rand .reroll (Session.mk sh cu .Rolling tg ds rk) =
          (Session.mk sh cu .Rolling tg (ds.reroll_dice rand rk).1
            (ds.reroll_dice rand rk).2, none) from by
        show (if ds.rolls = 0 then _ else _) = _
        rw [if_neg hr0, if_neg hm]] at hstep1
      have hs₁ : s₁ = Session.mk sh cu .Rolling tg (ds.reroll_dice rand rk).1
          (ds.reroll_dice rand rk).2 := by
        cases hstep1
        rfl
      subst hs₁
      have hr1 : ¬ ((ds.reroll_dice rand rk).1.rolls = 0) := by
        show ¬ (ds.rolls - 1 = 0)
        omega
      by_cases hm₁ : m₁ = 0
      · rw [show stepCmd rand .reroll
            { Session.mk sh cu .Rolling tg (ds.reroll_dice rand rk).1
                (ds.reroll_dice rand rk).2 with
              ds := { (ds.reroll_dice rand rk).1 with rollmsk := m₁ } } =
            ({ Session.mk sh cu .Rolling tg (ds.reroll_dice rand rk).1
                (ds.reroll_dice rand rk).2 with
              ds := { (ds.reroll_dice rand rk).1 with rollmsk := m₁ } },
              some .NoDiceSelected) from by
          show (if (ds.reroll_dice rand rk).1.rolls = 0 then _ else _) = _
          rw [if_neg hr1, if_pos hm₁]] at hstep2
        cases hstep2
      · rw [show stepCmd rand .reroll
            { Session.mk sh cu .Rolling tg (ds.reroll_dice rand rk).1
                (ds.reroll_dice rand rk).2 with
              ds := { (ds.reroll_dice rand rk).1 with rollmsk := m₁ } } =
            ({ Session.mk sh cu .Rolling tg (ds.reroll_dice rand rk).1
                (ds.reroll_dice rand rk).2 with
              ds := (({ (ds.reroll_dice rand rk).1 with rollmsk := m₁ } :
                DiceState).reroll_dice rand (ds.reroll_dice rand rk).2).1,
              rk := (({ (ds.reroll_dice rand rk).1 with rollmsk := m₁ } :
                DiceState).reroll_dice rand (ds.reroll_dice rand rk).2).2 }, none)
            from by
          show (if (ds.reroll_dice rand rk).1.rolls = 0 then _ else _) = _
          rw [if_neg hr1, if_neg hm₁]] at hstep2
        have hs₂ : s₂.ds.rolls = ds.rolls - 1 - 1 := by
          cases hstep2
          rfl
        have hs₂phase : s₂.phase = .Rolling := by
          cases hstep2
          rfl
        obtain ⟨sh₂, cu₂, ph₂, tg₂, ds₂, rk₂⟩ := s₂
        have hph₂ : ph₂ = .Rolling := hs₂phase
        subst hph₂
        have hrolls₂ : ds₂.rolls = 0 := by
          have : ds₂.rolls = ds.rolls - 1 - 1 := hs₂
          omega
        show (if ds₂.rolls = 0 then _ else _) = _
        rw [if_pos hrolls₂]

/-- Witness for `reroll_cmd_spec`: a concrete successful reroll clears
the selection. -/
theorem reroll_cmd_spec_witness :
    (stepCmd (fun _ => 4) .reroll
      (Session.mk [ScoreSheet.empty] 0 .Rolling none (DiceState.mk [1, 2, 3, 4, 5] 6 2) 0)
      ).1.ds.rollmsk = 0 :=
  ((reroll_cmd_spec (fun _ => 4)
      (Session.mk [ScoreSheet.empty] 0 .Rolling none (DiceState.mk [1, 2, 3, 4, 5] 6 2) 0)
      rfl).2.2.1 (by decide) (by decide)).2.1

/-! ### Score sheet sizes and the game-loop invariant -/

theorem mem_categoryList (c : Category) : c ∈ categoryList := by
  cases c <;> decide

theorem categoryList_nodup : categoryList.Nodup := by decide

/-- A sheet has all `len(Category)` entries exactly when every category
is present. -/
theorem size_full_iff (ss : ScoreSheet) :
    ss.size = categoryList.length ↔ ∀ c, (ss c).isSome = true := by
  unfold ScoreSheet.size
  constructor
  · intro h c
    have hsub : (categoryList.filter (fun x => (ss x).isSome)).Sublist categoryList :=
      List.filter_sublist _
    have heq := hsub.eq_of_length h
    have hc : c ∈ categoryList.filter (fun x => (ss x).isSome) := by
      rw [heq]
      exact mem_categoryList c
    exact (List.mem_filter.1 hc).2
  · intro h
    rw [List.filter_eq_self.2 (fun a _ => h a)]

theorem countP_setitem_of_absent (ss : ScoreSheet) (c : Category) (v : Nat)
    (habs : ss c = none) :
    ∀ l : List Category, l.Nodup →
      l.countP (fun x => ((ss.setitem c v) x).isSome) =
        l.countP (fun x => (ss x).isSome) + (if c ∈ l then 1 else 0) := by
  intro l
  induction l with
  | nil => intro _; simp
  | cons a l ih =>
    intro hnd
    rw [List.nodup_cons] at hnd
    obtain ⟨hnal, hnd⟩ := hnd
    rw [List.countP_cons, List.countP_cons, ih hnd]
    by_cases hac : c = a
    · subst hac
      have hp : ((ss.setitem c v) c).isSome = true := by simp [ScoreSheet.setitem]
      have hq : (ss c).isSome = false := by rw [habs]; rfl
      simp [hp, hq, hnal]
    · have hps : ((ss.setitem c v) a).isSome = (ss a).isSome := by
        unfold ScoreSheet.setitem
        rw [if_neg (fun h => hac h.symm)]
      have hmem : (c ∈ a :: l) ↔ (c ∈ l) := by
        rw [List.mem_cons]
        exact or_iff_right hac
      rw [hps]
      by_cases hcl : c ∈ l
      · rw [if_pos hcl, if_pos (hmem.2 hcl)]
        omega
      · rw [if_neg hcl, if_neg (fun h => hcl (hmem.1 h))]
        omega

/-- Inserting an absent category grows the sheet by exactly one entry. -/
theorem size_setitem_of_absent (ss : ScoreSheet) (c : Category) (v : Nat)
    (habs : ss c = none) :
    (ss.setitem c v).size = ss.size + 1 := by
  unfold ScoreSheet.size
  rw [← List.countP_eq_length_filter, ← List.countP_eq_length_filter,
    countP_setitem_of_absent ss c v habs categoryList categoryList_nodup,
    if_pos (mem_categoryList c)]

theorem getD_set_self {l : List ScoreSheet} {j : Nat} (h : j < l.length)
    (x : ScoreSheet) :
    (l.set j x).getD j ScoreSheet.empty = x := by
  rw [List.getD_eq_getElem?_getD, List.getElem?_set_self (by simpa using h)]
  rfl

theorem getD_set_ne {l : List ScoreSheet} {i j : Nat} (h : j ≠ i) (x : ScoreSheet) :
    (l.set j x).getD i ScoreSheet.empty = l.getD i ScoreSheet.empty := by
  rw [List.getD_eq_getElem?_getD, List.getElem?_set_ne h, ← List.getD_eq_getElem?_getD]

/-- The invariant only reads the sheets, the cursor, the phase and the
highlight. -/
theorem inv_of_eq_parts {s t : Session} (h : Inv s)
    (hsheets : t.sheets = s.sheets) (hcursor : t.cursor = s.cursor)
    (hphase : t.phase = s.phase) (htogl : t.togl = s.togl) : Inv t := by
  unfold Inv SizeProfile sheetAt at h ⊢
  rw [hsheets, hcursor, hphase, htogl]
  exact h

theorem inv_init (rand : Nat → Nat) (n : Nat) (hn : 0 < n) :
    Inv (Session.init rand n) := by
  refine ⟨by simpa [Session.init], by simpa [Session.init], ?_, ?_⟩
  · intro hph
    cases hph
  · right
    refine ⟨fun hph => Phase.noConfusion hph, 0, ?_⟩
    intro i hi
    simp only [Session.init] at hi ⊢
    rw [if_neg (by omega)]
    unfold sheetAt
    rw [List.getD_eq_getElem?_getD]
    simp only [List.getElem?_replicate]
    rw [if_pos (by simpa using hi)]
    rfl

/-- Every game-loop step preserves the invariant. -/
theorem inv_step (rand : Nat → Nat) (cmd : Cmd) (s : Session) (h : Inv s) :
    Inv (stepCmd rand cmd s).1 := by
  obtain ⟨sh, cu, ph, tg, ds, rk⟩ := s
  cases ph with
  | GameEnd => cases cmd <;> exact h
  | Rolling =>
    cases cmd with
    | toggleDie i => exact inv_of_eq_parts h rfl rfl rfl rfl
    | markAll => exact inv_of_eq_parts h rfl rfl rfl rfl
    | toggleCat c => exact h
    | confirm => exact h
    | reroll =>
      show Inv ((if ds.rolls = 0 then _ else _ : Session × Option GameErr).1)
      split
      · exact h
      · show Inv ((if ds.rollmsk = 0 then _ else _ : Session × Option GameErr).1)
        split
        · exact h
        · exact inv_of_eq_parts h rfl rfl rfl rfl
    | enterPick =>
      obtain ⟨h1, h2, -, hprof⟩ := h
      refine ⟨h1, h2, ?_, ?_⟩
      · intro _ c htg
        cases htg
      · right
        refine ⟨fun hph => Phase.noConfusion hph, ?_⟩
        rcases hprof with ⟨hge, -⟩ | ⟨-, k, hk⟩
        · cases hge
        · exact ⟨k, hk⟩
  | PickingCategory =>
    cases cmd with
    | toggleDie i => exact h
    | markAll => exact h
    | reroll => exact h
    | enterPick => exact h
    | toggleCat c =>
      show Inv ((if ((sh.getD cu ScoreSheet.empty) c).isSome = true then _ else _ :
        Session × Option GameErr).1)
      split
      · exact h
      · rename_i hp
        obtain ⟨h1, h2, -, hprof⟩ := h
        refine ⟨h1, h2, ?_, ?_⟩
        · intro _ c' htg
          have hcc : c = c' := by
            injection htg
          rw [← hcc]
          exact Option.not_isSome_iff_eq_none.1 hp
        · right
          refine ⟨fun hph => Phase.noConfusion hph, ?_⟩
          rcases hprof with ⟨hge, -⟩ | ⟨-, k, hk⟩
          · cases hge
          · exact ⟨k, hk⟩
    | confirm =>
      cases tg with
      | none => exact h
      | some cat =>
        obtain ⟨h1, h2, h3, hprof⟩ := h
        rcases hprof with ⟨hge, -⟩ | ⟨-, k, hk⟩
        · cases hge
        have h1' : 0 < sh.length := h1
        have h2' : cu < sh.length := h2
        have hcat : (sh.getD cu ScoreSheet.empty) cat = none := h3 rfl cat rfl
        have hk' : ∀ i, i < sh.length → (sh.getD i ScoreSheet.empty).size =
            if i < cu then k + 1 else k := fun i hi => hk i hi
        have hkcu : (sh.getD cu ScoreSheet.empty).size = k := by
          have := hk' cu h2'
          rwa [if_neg (Nat.lt_irrefl cu)] at this
        have hins :
            ((sh.set cu ((sh.getD cu ScoreSheet.empty).setitem cat
              (cat.compute ds.dice))).getD cu ScoreSheet.empty).size = k + 1 := by
          rw [getD_set_self h2', size_setitem_of_absent _ _ _ hcat, hkcu]
        have hother : ∀ i, i ≠ cu →
            (sh.set cu ((sh.getD cu ScoreSheet.empty).setitem cat
              (cat.compute ds.dice))).getD i ScoreSheet.empty =
            sh.getD i ScoreSheet.empty :=
          fun i hi => getD_set_ne (fun e => hi e.symm) _
        refine ⟨?_, ?_, ?_, ?_⟩
        · show 0 < (sh.set cu _).length
          rw [List.length_set]
          exact h1'
        · show (cu + 1) % sh.length < (sh.set cu _).length
          rw [List.length_set]
          exact Nat.mod_lt _ h1'
        · intro hph
          exfalso
          revert hph
          show (if _ ∧ _ then Phase.GameEnd else Phase.Rolling) = Phase.PickingCategory → False
          split
          · intro hph
            cases hph
          · intro hph
            cases hph
        · by_cases hlast : cu + 1 = sh.length
          · have hcur0 : (cu + 1) % sh.length = 0 := by
              rw [hlast, Nat.mod_self]
            have hall : ∀ i, i < sh.length →
                ((sh.set cu ((sh.getD cu ScoreSheet.empty).setitem cat
                  (cat.compute ds.dice))).getD i ScoreSheet.empty).size = k + 1 := by
              intro i hik
              by_cases hic : i = cu
              · rw [hic]
                exact hins
              · rw [hother i hic]
                have := hk' i hik
                rwa [if_pos (by omega)] at this
            by_cases hfull : k + 1 = categoryList.length
            · left
              constructor
              · show (if _ ∧ _ then Phase.GameEnd else Phase.Rolling) = Phase.GameEnd
                rw [if_pos ?_]
                refine ⟨hcur0, ?_⟩
                rw [hcur0, hall 0 h1']
                exact hfull
              · intro i hi
                rw [show (15 : Nat) = categoryList.length from rfl, ← hfull]
                have hi2 : i < (sh.set cu ((sh.getD cu ScoreSheet.empty).setitem cat
                    (cat.compute ds.dice))).length := hi
                rw [List.length_set] at hi2
                exact hall i hi2
            · right
              constructor
              · show (if _ ∧ _ then Phase.GameEnd else Phase.Rolling) ≠ Phase.GameEnd
                rw [if_neg ?_]
                · intro hph
                  cases hph
                · rintro ⟨-, hsz⟩
                  rw [hcur0, hall 0 h1'] at hsz
                  exact hfull hsz
              · refine ⟨k + 1, ?_⟩
                intro i hi
                have hi2 : i < (sh.set cu ((sh.getD cu ScoreSheet.empty).setitem cat
                    (cat.compute ds.dice))).length := hi
                rw [List.length_set] at hi2
                rw [if_neg (by
                  show ¬ i < (cu + 1) % sh.length
                  rw [hcur0]
                  omega)]
                exact hall i hi2
          · have hcur : (cu + 1) % sh.length = cu + 1 :=
              Nat.mod_eq_of_lt (by omega)
            right
            constructor
            · show (if _ ∧ _ then Phase.GameEnd else Phase.Rolling) ≠ Phase.GameEnd
              rw [if_neg ?_]
              · intro hph
                cases hph
              · rintro ⟨hc0, -⟩
                rw [hcur] at hc0
                omega
            · refine ⟨k, ?_⟩
              intro i hi
              have hi2 : i < (sh.set cu ((sh.getD cu ScoreSheet.empty).setitem cat
                  (cat.compute ds.dice))).length := hi
              rw [List.length_set] at hi2
              show ((sh.set cu ((sh.getD cu ScoreSheet.empty).setitem cat
                  (cat.compute ds.dice))).getD i ScoreSheet.empty).size =
                if i < (cu + 1) % sh.length then k + 1 else k
              rw [hcur]
              by_cases hic : i = cu
              · rw [hic, if_pos (by omega)]
                exact hins
              · rw [hother i hic]
                have := hk' i hi2
                by_cases hlt : i < cu
                · rw [if_pos hlt] at this
                  rw [if_pos (by omega)]
                  exact this
                · rw [if_neg hlt] at this
                  rw [if_neg (by omega)]
                  exact this

/-- Every reachable session satisfies the invariant. -/
theorem reachable_inv (rand : Nat → Nat) (s : Session) (h : Reachable rand s) :
    Inv s := by
  induction h with
  | init n hn => exact inv_init rand n hn
  | step cmd s _ ih => exact inv_step rand cmd s ih

/-- **C1**  A successful ConfirmCategory rotates the cursor to the next
player in cyclic order, and the session enters the terminal GameEnd
phase iff the newly active player is the first player in turn order and
that player's sheet has all 15 categories filled.  In a reachable
2-player session, GameEnd implies both sheets hold 15 entries — the game
never ends earlier; in particular a confirm by player 0 (with another
player present) always continues in Rolling. -/
theorem confirm_category_spec (rand : Nat → Nat) (s : Session)
    (hreach : Reachable rand s) :
    (∀ cat, s.phase = .PickingCategory → s.togl = some cat →
      ((stepCmd rand .confirm s).1.cursor = (s.cursor + 1) % s.sheets.length ∧
       ((stepCmd rand .confirm s).1.phase = .GameEnd ↔
         ((stepCmd rand .confirm s).1.cursor = 0 ∧
          ∀ c : Category,
            (((stepCmd rand .confirm s).1.sheets.getD 0 ScoreSheet.empty) c).isSome =
              true)))) ∧
    (s.sheets.length = 2 → s.phase = .GameEnd →
      (sheetAt s 0).size = 15 ∧ (sheetAt s 1).size = 15) ∧
    (∀ cat, 2 ≤ s.sheets.length → s.cursor = 0 → s.phase = .PickingCategory →
      s.togl = some cat → (stepCmd rand .confirm s).1.phase = .Rolling) := by
  have hinv := reachable_inv rand s hreach
  obtain ⟨sh, cu, ph, tg, ds, rk⟩ := s
  refine ⟨?_, ?_, ?_⟩
  · intro cat hph htg
    have hph' : ph = .PickingCategory := hph
    subst hph'
    have htg' : tg = some cat := htg
    subst htg'
    refine ⟨rfl, ?_⟩
    show (if (cu + 1) % sh.length = 0 ∧
        ScoreSheet.size ((sh.set cu ((sh.getD cu ScoreSheet.empty).setitem cat
          (cat.compute ds.dice))).getD ((cu + 1) % sh.length) ScoreSheet.empty) =
          categoryList.length
      then Phase.GameEnd else Phase.Rolling) = Phase.GameEnd ↔
      ((cu + 1) % sh.length = 0 ∧
        ∀ c : Category,
          (((sh.set cu ((sh.getD cu ScoreSheet.empty).setitem cat
            (cat.compute ds.dice))).getD 0 ScoreSheet.empty) c).isSome = true)
    by_cases hc0 : (cu + 1) % sh.length = 0
    · rw [hc0]
      by_cases hsz :
          ScoreSheet.size ((sh.set cu ((sh.getD cu ScoreSheet.empty).setitem cat
            (cat.compute ds.dice))).getD 0 ScoreSheet.empty) = categoryList.length
      · rw [if_pos ⟨rfl, hsz⟩]
        exact ⟨fun _ => ⟨rfl, (size_full_iff _).1 hsz⟩, fun _ => rfl⟩
      · rw [if_neg (by rintro ⟨-, hs⟩; exact hsz hs)]
        constructor
        · intro hcontra
          cases hcontra
        · rintro ⟨-, hfull⟩
          exact absurd ((size_full_iff _).2 hfull) hsz
    · rw [if_neg (by rintro ⟨h0, -⟩; exact hc0 h0)]
      constructor
      · intro hcontra
        cases hcontra
      · rintro ⟨h0, -⟩
        exact absurd h0 hc0
  · intro hlen2 hph
    obtain ⟨-, -, -, hprof⟩ := hinv
    rcases hprof with ⟨-, hall⟩ | ⟨hne, -⟩
    · have hlen2' : sh.length = 2 := hlen2
      exact ⟨hall 0 (by omega), hall 1 (by omega)⟩
    · exact absurd hph hne
  · intro cat hlen2 hcu0 hph htg
    have hph' : ph = .PickingCategory := hph
    subst hph'
    have htg' : tg = some cat := htg
    subst htg'
    have hcu0' : cu = 0 := hcu0
    subst hcu0'
    have hlen2' : 2 ≤ sh.length := hlen2
    show (if (0 + 1) % sh.length = 0 ∧
        ScoreSheet.size ((sh.set 0 ((sh.getD 0 ScoreSheet.empty).setitem cat
          (cat.compute ds.dice))).getD ((0 + 1) % sh.length) ScoreSheet.empty) =
          categoryList.length
      then Phase.GameEnd else Phase.Rolling) = Phase.Rolling
    rw [if_neg ?_]
    rintro ⟨h0, -⟩
    rw [Nat.mod_eq_of_lt (by omega)] at h0
    omega

/-- Witness for `confirm_category_spec`: in a fresh 2-player session,
entering the category picker, highlighting Ones and confirming keeps the
session in the Rolling phase (the game does not end). -/
theorem confirm_category_spec_witness :
    (stepCmd (fun _ => 1) .confirm
      (stepCmd (fun _ => 1) (.toggleCat .ONES)
        (stepCmd (fun _ => 1) .enterPick (Session.init (fun _ => 1) 2)).1).1).1.phase =
      .Rolling :=
  (confirm_category_spec (fun _ => 1)
    (stepCmd (fun _ => 1) (.toggleCat .ONES)
      (stepCmd (fun _ => 1) .enterPick (Session.init (fun _ => 1) 2)).1).1
    (Reachable.step (.toggleCat .ONES) _
      (Reachable.step .enterPick _ (Reachable.init 2 (by decide))))).2.2
    .ONES (by decide) rfl rfl rfl

/-! ### Leaderboard order and merge -/

theorem strLt_irrefl (a : List Char) : strLt a a = false := by
  induction a with
  | nil => rfl
  | cons c cs ih => simp [strLt, ih]

theorem strLt_trans {a b c : List Char} (hab : strLt a b = true)
    (hbc : strLt b c = true) : strLt a c = true := by
  induction a generalizing b c with
  | nil =>
    cases c with
    | nil => cases b <;> simp [strLt] at hbc
    | cons z cs => rfl
  | cons x as ih =>
    cases b with
    | nil => simp [strLt] at hab
    | cons y bs =>
      cases c with
      | nil => simp [strLt] at hbc
      | cons z cs =>
        simp only [strLt, Bool.or_eq_true, Bool.and_eq_true, decide_eq_true_eq,
          beq_iff_eq] at hab hbc ⊢
        rcases hab with h1 | ⟨rfl, h1'⟩
        · rcases hbc with h2 | ⟨rfl, h2'⟩
          · exact Or.inl (lt_trans h1 h2)
          · exact Or.inl h1
        · rcases hbc with h2 | ⟨rfl, h2'⟩
          · exact Or.inl h2
          · exact Or.inr ⟨rfl, ih h1' h2'⟩

theorem strLt_asymm {a b : List Char} (h : strLt a b = true) : strLt b a = false := by
  cases hba : strLt b a
  · rfl
  · have := strLt_trans h hba
    rw [strLt_irrefl] at this
    cases this

theorem strLt_connex {a b : List Char} (hab : strLt a b = false)
    (hba : strLt b a = false) : a = b := by
  induction a generalizing b with
  | nil =>
    cases b with
    | nil => rfl
    | cons y bs => simp [strLt] at hab
  | cons x as ih =>
    cases b with
    | nil => simp [strLt] at hba
    | cons y bs =>
      simp only [strLt, Bool.or_eq_false_iff, Bool.and_eq_false_iff,
        decide_eq_false_iff_not, beq_eq_false_iff_ne] at hab hba
      obtain ⟨hxy, hab2⟩ := hab
      obtain ⟨hyx, hba2⟩ := hba
      have hx : x = y := le_antisymm (le_of_not_lt hyx) (le_of_not_lt hxy)
      subst hx
      rcases hab2 with hne | hs1
      · exact absurd rfl hne
      · rcases hba2 with hne | hs2
        · exact absurd rfl hne
        · rw [ih hs1 hs2]

theorem keyLt_iff {a b : LBEntry} :
    keyLt a b = true ↔ (b.1 < a.1 ∨ (a.1 = b.1 ∧ strLt a.2 b.2 = true)) := by
  unfold keyLt
  simp only [Bool.or_eq_true, Bool.and_eq_true, decide_eq_true_eq]
  constructor
  · rintro (h | ⟨h, hs⟩)
    · exact Or.inl (by omega)
    · exact Or.inr ⟨by omega, hs⟩
  · rintro (h | ⟨h, hs⟩)
    · exact Or.inl (by omega)
    · exact Or.inr ⟨by omega, hs⟩

theorem keyLt_asymm {a b : LBEntry} (h : keyLt a b = true) : keyLt b a = false := by
  cases hba : keyLt b a
  · rfl
  · exfalso
    rcases keyLt_iff.1 h with h1 | ⟨h1, hs1⟩ <;>
      rcases keyLt_iff.1 hba with h2 | ⟨h2, hs2⟩
    · omega
    · omega
    · omega
    · rw [strLt_asymm hs1] at hs2
      cases hs2

theorem keyLt_trans {a b c : LBEntry} (h1 : keyLt a b = true)
    (h2 : keyLt b c = true) : keyLt a c = true := by
  refine keyLt_iff.2 ?_
  rcases keyLt_iff.1 h1 with ha | ⟨ha, hsa⟩ <;>
    rcases keyLt_iff.1 h2 with hb | ⟨hb, hsb⟩
  · exact Or.inl (by omega)
  · exact Or.inl (by omega)
  · exact Or.inl (by omega)
  · exact Or.inr ⟨by omega, strLt_trans hsa hsb⟩

theorem specLe_iff {a b : LBEntry} : specLe a b ↔ keyLt b a = false := by
  constructor
  · rintro (h | ⟨h, hn | hs⟩)
    · cases hk : keyLt b a
      · rfl
      · exfalso
        rcases keyLt_iff.1 hk with h2 | ⟨h2, -⟩ <;> omega
    · cases hk : keyLt b a
      · rfl
      · exfalso
        rcases keyLt_iff.1 hk with h2 | ⟨-, hs2⟩
        · omega
        · rw [hn, strLt_irrefl] at hs2
          cases hs2
    · cases hk : keyLt b a
      · rfl
      · exfalso
        rcases keyLt_iff.1 hk with h2 | ⟨-, hs2⟩
        · omega
        · rw [strLt_asymm hs] at hs2
          cases hs2
  · intro h
    by_cases hsc : b.1 < a.1
    · exact Or.inl hsc
    · have hba : ¬ a.1 < b.1 := by
        intro hc
        rw [keyLt_iff.2 (Or.inl hc)] at h
        cases h
      have heq : a.1 = b.1 := by omega
      refine Or.inr ⟨heq, ?_⟩
      cases hs : strLt a.2 b.2
      · have hs2 : strLt b.2 a.2 = false := by
          cases hs2 : strLt b.2 a.2
          · rfl
          · exfalso
            rw [keyLt_iff.2 (Or.inr ⟨heq.symm, hs2⟩)] at h
            cases h
        exact Or.inl (strLt_connex hs hs2)
      · exact Or.inr rfl

theorem insort_length (x : LBEntry) (l : List LBEntry) :
    (insort x l).length = l.length + 1 := by
  induction l with
  | nil => rfl
  | cons y ys ih =>
    simp only [insort]
    split
    · simp
    · simp [ih]

theorem mem_insort {z x : LBEntry} {l : List LBEntry} :
    z ∈ insort x l ↔ z = x ∨ z ∈ l := by
  induction l with
  | nil => simp [insort]
  | cons y ys ih =>
    simp only [insort]
    split
    · simp only [List.mem_cons]
    · simp only [List.mem_cons, ih]
      tauto

theorem insort_sublist (x : LBEntry) (l : List LBEntry) : l.Sublist (insort x l) := by
  induction l with
  | nil => simp [insort]
  | cons y ys ih =>
    simp only [insort]
    split
    · exact List.sublist_cons_self x (y :: ys)
    · exact List.Sublist.cons₂ y ih

/-- `bisect.insort` places the new entry after every existing entry that
is not strictly greater under the key — in particular after all existing
entries of equal key: the insertion is right-biased (stable). -/
theorem insort_eq_takeWhile_dropWhile (x : LBEntry) (l : List LBEntry) :
    insort x l = l.takeWhile (fun y => !keyLt x y) ++
      x :: l.dropWhile (fun y => !keyLt x y) := by
  induction l with
  | nil => rfl
  | cons y ys ih =>
    simp only [insort, List.takeWhile_cons, List.dropWhile_cons]
    by_cases h : keyLt x y = true
    · rw [if_pos h, h]
      simp
    · have hf : keyLt x y = false := by
        cases hk : keyLt x y
        · rfl
        · exact absurd hk h
      rw [if_neg h, hf]
      simp [ih]

theorem insort_pairwise (x : LBEntry) {l : List LBEntry}
    (hl : l.Pairwise (fun a b => keyLt b a = false)) :
    (insort x l).Pairwise (fun a b => keyLt b a = false) := by
  induction l with
  | nil => simp [insort]
  | cons y ys ih =>
    rw [List.pairwise_cons] at hl
    obtain ⟨hy, hys⟩ := hl
    simp only [insort]
    split
    · rename_i hxy
      rw [List.pairwise_cons]
      refine ⟨?_, ?_⟩
      · intro z hz
        rcases List.mem_cons.1 hz with rfl | hz'
        · exact keyLt_asymm hxy
        · cases hzx : keyLt z x
          · rfl
          · exfalso
            have := keyLt_trans hzx hxy
            rw [hy z hz'] at this
            cases this
      · rw [List.pairwise_cons]
        exact ⟨hy, hys⟩
    · rename_i hxy
      rw [List.pairwise_cons]
      refine ⟨?_, ih hys⟩
      intro z hz
      rcases mem_insort.1 hz with rfl | hz'
      · cases hk : keyLt z y
        · rfl
        · exact absurd hk hxy
      · exact hy z hz'

theorem mergeHist_cons (hist : List LBEntry) (p : LBEntry) (ps : List LBEntry) :
    mergeHist hist (p :: ps) = mergeHist (insort p hist) ps := rfl

theorem mergeHist_length (hist finals : List LBEntry) :
    (mergeHist hist finals).length = hist.length + finals.length := by
  induction finals generalizing hist with
  | nil => rfl
  | cons p ps ih =>
    rw [mergeHist_cons, ih, insort_length, List.length_cons]
    omega

theorem mergeHist_sublist (hist finals : List LBEntry) :
    hist.Sublist (mergeHist hist finals) := by
  induction finals generalizing hist with
  | nil => exact List.Sublist.refl hist
  | cons p ps ih => exact (insort_sublist p hist).trans (ih (insort p hist))

theorem mergeHist_pairwise (hist finals : List LBEntry)
    (h : hist.Pairwise (fun a b => keyLt b a = false)) :
    (mergeHist hist finals).Pairwise (fun a b => keyLt b a = false) := by
  induction finals generalizing hist with
  | nil => exact h
  | cons p ps ih => exact ih (insort p hist) (insort_pairwise p h)

/-- **C3**  Merging a game's finals into a key-sorted leaderboard keeps
it sorted by score descending / name ascending, adds exactly one row per
player (no deduplication), keeps every existing row (as a sublist, so
relative order of existing rows is untouched), inserts each new entry
after all existing entries of less-or-equal key (right-biased, hence
stable for equal keys), and merging `[(100,"B"), (100,"A")]` into an
empty leaderboard yields `[(100,"A"), (100,"B")]`. -/
theorem merge_spec (hist finals : List LBEntry) (hsorted : hist.Pairwise specLe) :
    (mergeHist hist finals).Pairwise specLe ∧
    (mergeHist hist finals).length = hist.length + finals.length ∧
    hist.Sublist (mergeHist hist finals) ∧
    (∀ (x : LBEntry) (l : List LBEntry), insort x l =
      l.takeWhile (fun y => !keyLt x y) ++ x :: l.dropWhile (fun y => !keyLt x y)) ∧
    mergeHist [] [(100, ['B']), (100, ['A'])] = [(100, ['A']), (100, ['B'])] := by
  refine ⟨?_, mergeHist_length hist finals, mergeHist_sublist hist finals,
    insort_eq_takeWhile_dropWhile, by decide⟩
  have h1 : hist.Pairwise (fun a b => keyLt b a = false) :=
    hsorted.imp (fun hab => specLe_iff.1 hab)
  exact (mergeHist_pairwise hist finals h1).imp (fun hab => specLe_iff.2 hab)

/-- Witness for `merge_spec`: merging one final score into a concrete
two-row sorted leaderboard yields three rows. -/
theorem merge_spec_witness :
    ([((200 : Int), ['Z']), (100, ['B'])] : List LBEntry).Pairwise specLe ∧
    (mergeHist [((200 : Int), ['Z']), (100, ['B'])] [(100, ['A'])]).length = 2 + 1 := by
  have hs : ([((200 : Int), ['Z']), (100, ['B'])] : List LBEntry).Pairwise specLe := by
    refine List.Pairwise.cons ?_ (List.Pairwise.cons ?_ List.Pairwise.nil)
    · intro b hb
      rw [List.mem_singleton] at hb
      subst hb
      exact Or.inl (by decide)
    · intro b hb
      cases hb
  exact ⟨hs, (merge_spec _ [(100, ['A'])] hs).2.1⟩

/-! ### History file round trip -/

theorem toNat_digitChar {d : Nat} (h : d < 10) : (digitChar d).toNat = 48 + d := by
  interval_cases d <;> decide

theorem natRepr_digits (n : Nat) : ∀ c ∈ natRepr n, 48 ≤ c.toNat ∧ c.toNat ≤ 57 := by
  induction n using Nat.strong_induction_on with
  | _ n ih =>
    rw [natRepr]
    split
    · intro c hc
      rw [List.mem_singleton] at hc
      subst hc
      rw [toNat_digitChar (by assumption)]
      omega
    · intro c hc
      rcases List.mem_append.1 hc with h1 | h2
      · exact ih (n / 10) (Nat.div_lt_self (by omega) (by decide)) c h1
      · rw [List.mem_singleton] at h2
        subst h2
        rw [toNat_digitChar (Nat.mod_lt _ (by decide))]
        omega

theorem natRepr_ne_nil (n : Nat) : natRepr n ≠ [] := by
  rw [natRepr]
  split
  · simp
  · simp

theorem digitVal_digitChar {d : Nat} (h : d < 10) : digitVal (digitChar d) = some d := by
  unfold digitVal
  rw [toNat_digitChar h, if_pos (by omega : 48 ≤ 48 + d ∧ 48 + d ≤ 57)]
  exact congrArg some (by omega)

theorem foldl_parse_natRepr (n : Nat) : ∀ a : Nat,
    (natRepr n).foldl parseDigitStep (some a) =
      some (a * 10 ^ (natRepr n).length + n) := by
  induction n using Nat.strong_induction_on with
  | _ n ih =>
    intro a
    by_cases h : n < 10
    · rw [natRepr, if_pos h]
      show parseDigitStep (some a) (digitChar n) = some (a * 10 ^ 1 + n)
      unfold parseDigitStep
      rw [Option.some_bind, digitVal_digitChar h, Option.map_some']
      exact congrArg some (by ring_nf)
    · rw [natRepr, if_neg h, List.foldl_append,
        ih (n / 10) (Nat.div_lt_self (by omega) (by decide)) a, List.length_append]
      show parseDigitStep
          (some (a * 10 ^ (natRepr (n / 10)).length + n / 10)) (digitChar (n % 10)) =
        some (a * 10 ^ ((natRepr (n / 10)).length + 1) + n)
      unfold parseDigitStep
      rw [Option.some_bind, digitVal_digitChar (Nat.mod_lt _ (by decide)),
        Option.map_some']
      refine congrArg some ?_
      have hdm := Nat.div_add_mod n 10
      rw [Nat.pow_succ]
      calc (a * 10 ^ (natRepr (n / 10)).length + n / 10) * 10 + n % 10
          = a * (10 ^ (natRepr (n / 10)).length * 10) +
            (10 * (n / 10) + n % 10) := by ring
        _ = a * (10 ^ (natRepr (n / 10)).length * 10) + n := by rw [hdm]

theorem parseNat_natRepr (n : Nat) : parseNat (natRepr n) = some n := by
  have hfold := foldl_parse_natRepr n 0
  cases hre : natRepr n with
  | nil => exact absurd hre (natRepr_ne_nil n)
  | cons c cs =>
    rw [hre] at hfold
    unfold parseNat
    rw [hfold]
    exact congrArg some (by omega)

theorem intRepr_chars (z : Int) : ∀ c ∈ intRepr z, 45 ≤ c.toNat ∧ c.toNat ≤ 57 := by
  cases z with
  | ofNat n =>
    intro c hc
    have := natRepr_digits n c hc
    omega
  | negSucc n =>
    intro c hc
    rcases List.mem_cons.1 hc with he | hc'
    · subst he
      decide
    · have := natRepr_digits (n + 1) c hc'
      omega

theorem parseInt_intRepr (z : Int) : parseInt (intRepr z) = some z := by
  cases z with
  | ofNat n =>
    show parseInt (natRepr n) = some (Int.ofNat n)
    cases hre : natRepr n with
    | nil => exact absurd hre (natRepr_ne_nil n)
    | cons c cs =>
      have hc : ¬ c = '-' := by
        intro he
        have hd := natRepr_digits n c (hre ▸ List.mem_cons_self c cs)
        rw [he] at hd
        have hm : ('-' : Char).toNat = 45 := by decide
        omega
      show (if c = '-' then _ else _) = _
      rw [if_neg hc, ← hre, parseNat_natRepr]
      rfl
  | negSucc n =>
    show (if ('-' : Char) = '-' then
        (parseNat (natRepr (n + 1))).map (fun m : Nat => -(m : Int))
      else (parseNat ('-' :: natRepr (n + 1))).map (fun m : Nat => (m : Int))) =
      some (Int.negSucc n)
    rw [if_pos rfl, parseNat_natRepr, Option.map_some']
    refine congrArg some ?_
    rw [Int.negSucc_eq]
    push_cast
    ring

theorem splitOn_not_mem {sep : Char} {a : List Char} (h : ¬ sep ∈ a) :
    splitOn sep a = [a] := by
  induction a with
  | nil => rfl
  | cons c cs ih =>
    have hc : ¬ c = sep := fun he => h (he ▸ List.mem_cons_self c cs)
    show (if c = sep then _ else _) = _
    rw [if_neg hc, ih (fun hm => h (List.mem_cons_of_mem c hm))]

theorem splitOn_append {sep : Char} {a : List Char} (h : ¬ sep ∈ a)
    (rest : List Char) :
    splitOn sep (a ++ sep :: rest) = a :: splitOn sep rest := by
  induction a with
  | nil =>
    show (if sep = sep then _ else _) = _
    rw [if_pos rfl]
  | cons c cs ih =>
    have hc : ¬ c = sep := fun he => h (he ▸ List.mem_cons_self c cs)
    rw [List.cons_append]
    show (if c = sep then _ else _) = _
    rw [if_neg hc, ih (fun hm => h (List.mem_cons_of_mem c hm))]

theorem parseLine_entryLine (s : Int) (n : List Char) (hn : ¬ SEP ∈ n) :
    parseLine (intRepr s ++ SEP :: n) = some (s, n) := by
  have hrep : ¬ SEP ∈ intRepr s := by
    intro hm
    have := intRepr_chars s SEP hm
    have hs : SEP.toNat = 31 := by decide
    omega
  have hsplit : splitOn SEP (intRepr s ++ SEP :: n) = [intRepr s, n] := by
    rw [splitOn_append hrep n, splitOn_not_mem hn]
  unfold parseLine
  rw [hsplit]
  show Option.map (fun z => (z, n)) (parseInt (intRepr s)) = some (s, n)
  rw [parseInt_intRepr]
  rfl

theorem splitNl_savehist (xs : List LBEntry) (hn : ∀ e ∈ xs, ¬ '\n' ∈ e.2) :
    splitOn '\n' (savehist xs) =
      xs.map (fun e => intRepr e.1 ++ SEP :: e.2) ++ [[]] := by
  induction xs with
  | nil => rfl
  | cons e es ih =>
    have hline : ¬ '\n' ∈ intRepr e.1 ++ SEP :: e.2 := by
      intro hm
      have hnl : ('\n' : Char).toNat = 10 := by decide
      rcases List.mem_append.1 hm with h1 | h2
      · have := intRepr_chars e.1 '\n' h1
        omega
      · rcases List.mem_cons.1 h2 with he | h3
        · exact absurd he (by decide)
        · exact hn e (List.mem_cons_self e es) h3
    rw [show savehist (e :: es) = (intRepr e.1 ++ SEP :: e.2) ++ '\n' :: savehist es
        from by simp [savehist, entryLine],
      splitOn_append hline (savehist es),
      ih (fun x hx => hn x (List.mem_cons_of_mem e hx))]
    rfl

theorem mapM_parseLine (xs : List LBEntry) (hvalid : ∀ e ∈ xs, ¬ SEP ∈ e.2) :
    (xs.map (fun e => intRepr e.1 ++ SEP :: e.2)).mapM parseLine = some xs := by
  induction xs with
  | nil => rfl
  | cons e es ih =>
    rw [List.map_cons, List.mapM_cons,
      parseLine_entryLine e.1 e.2 (hvalid e (List.mem_cons_self e es)),
      ih (fun x hx => hvalid x (List.mem_cons_of_mem e hx))]
    rfl

/-- **C4**  Writing any list of leaderboard entries whose names contain
neither a newline nor the 0x1F separator with `savehist` and reading the
file back with `loadhist` reproduces exactly the same entries in the
same order. -/
theorem savehist_loadhist_roundtrip (xs : List LBEntry)
    (hvalid : ∀ e ∈ xs, ¬ '\n' ∈ e.2 ∧ ¬ SEP ∈ e.2) :
    loadhist (savehist xs) = some xs := by
  show (if (splitOn '\n' (savehist xs)).getLast? = some [] then
          (splitOn '\n' (savehist xs)).dropLast
        else splitOn '\n' (savehist xs)).mapM parseLine = some xs
  rw [splitNl_savehist xs (fun e he => (hvalid e he).1), List.getLast?_concat,
    if_pos rfl, List.dropLast_concat,
    mapM_parseLine xs (fun e he => (hvalid e he).2)]

/-- Witness for `savehist_loadhist_roundtrip` on a concrete two-entry
history. -/
theorem savehist_loadhist_roundtrip_witness :
    loadhist (savehist [((120 : Int), ['A', 'b']), (-3, ['C'])]) =
      some [((120 : Int), ['A', 'b']), (-3, ['C'])] :=
  savehist_loadhist_roundtrip [((120 : Int), ['A', 'b']), (-3, ['C'])] (by decide)

end Yahoozy
